import Mathlib

/-!
Verification of the asynchronous command-execution subsystem of the
vscode-internal-command-mcp-server extension.

The development is a shallow embedding of the TypeScript sources:

* `isCommandAllowed`, `executeCommand`, `getAvailableCommands`,
  `updateAsyncConfig` embed the methods of `CommandExecutor`
  (src/commandExecutor.ts);
* `submitTask`, `processPendingTasks`, `cancelTask`, `completeTask`,
  `failTask`, `clearCompletedTasks`, `clearAllTasks`, `getTaskStats`,
  `stop`, `dispose` embed the methods of `BackgroundTaskExecutor`
  (src/backgroundTaskExecutor.ts);
* `executeVSCodeCommandTool` and `listVSCodeCommandsTool` embed the
  FastMCP tool handlers (src/fastMcpServer.ts).

JavaScript `Date.now()` timestamps are natural numbers, the VS Code
command host is an explicit `String → List String → Except String String`
oracle, and two pieces of instrumentation record what the source does
through side effects: `hostCalls` logs every `vscode.commands.executeCommand`
invocation, and `outstanding` holds the sequence numbers of tasks whose
awaited command promise has not yet settled.  Each task additionally
carries `seq`, the value of `++this.taskCounter` captured when its id
string was generated; it identifies the task object across mutations.
-/

namespace VSCMCP

/-- Lifecycle states of a background task, from the `status` union type of
`BackgroundTask` in backgroundTaskExecutor.ts. -/
inductive TaskStatus
  | pending
  | running
  | completed
  | failed
  | cancelled
deriving DecidableEq, Repr

/-- Aggregate counts returned by `BackgroundTaskExecutor.getTaskStats`. -/
structure TaskStats where
  total : Nat
  pending : Nat
  running : Nat
  completed : Nat
  failed : Nat
  cancelled : Nat
deriving DecidableEq, Repr

/-- One background task record, from the `BackgroundTask` interface.
`seq` is the captured `++this.taskCounter` value embedded in the generated
id string; it serves as the identity of the task object. -/
structure BackgroundTask where
  seq : Nat
  id : String
  command : String
  args : List String
  delay : Nat
  status : TaskStatus
  createdAt : Nat
  startedAt : Option Nat
  completedAt : Option Nat
  result : Option String
  error : Option String
deriving DecidableEq, Repr

/-- Instrumentation: one `vscode.commands.executeCommand` invocation, either
made directly by the synchronous path of `CommandExecutor.executeCommand`
or on behalf of a background task by `BackgroundTaskExecutor.executeTask`. -/
inductive HostCall
  | task (seq : Nat) (command : String) (args : List String)
  | sync (command : String) (args : List String)
deriving DecidableEq, Repr

/-- The sequence number a host call was made for, if it was a task call. -/
def HostCall.taskSeq? : HostCall → Option Nat
  | .task k _ _ => some k
  | .sync _ _ => none

/-- State of one `BackgroundTaskExecutor`: the `tasks` map (as a list in
insertion order), the `taskCounter`, the `isRunning` flag, plus the host-call
log and the set of in-flight command promises as instrumentation. -/
structure SysState where
  tasks : List BackgroundTask
  taskCounter : Nat
  isRunning : Bool
  hostCalls : List HostCall
  outstanding : List Nat
deriving DecidableEq, Repr

/-- The freshly constructed executor: empty map, counter 0, processor on. -/
def initState : SysState :=
  { tasks := [], taskCounter := 0, isRunning := true, hostCalls := [], outstanding := [] }

/-- Number of calls in a log made on behalf of the task with sequence
number `k`. -/
def callsFor (calls : List HostCall) (k : Nat) : Nat :=
  (calls.filter (fun c => c.taskSeq? = some k)).length

/-- Number of host calls made on behalf of the task with sequence number
`k`; counts the `.task` entries of the log. -/
def callCount (s : SysState) (k : Nat) : Nat :=
  callsFor s.hostCalls k

/-- The id string `bg_task_${++this.taskCounter}_${Date.now()}` generated
by `submitTask`. -/
def mkTaskId (n now : Nat) : String :=
  "bg_task_" ++ toString n ++ "_" ++ toString now

/-- Method `BackgroundTaskExecutor.submitTask`: create a pending task with the
next counter value and the current time, insert it into the map (a fresh
key appends in `Map` iteration order) and return its id. -/
def submitTask (command : String) (args : List String) (delay : Nat) (now : Nat)
    (s : SysState) : String × SysState :=
  let n := s.taskCounter + 1
  let task : BackgroundTask :=
    { seq := n, id := mkTaskId n now, command := command, args := args, delay := delay,
      status := .pending, createdAt := now, startedAt := none, completedAt := none,
      result := none, error := none }
  (mkTaskId n now, { s with tasks := s.tasks ++ [task], taskCounter := n })

/-- Lookup `Map.get(taskId)` as used by `getTask` and `cancelTask`: first task in
insertion order whose id matches. -/
def getTask (s : SysState) (taskId : String) : Option BackgroundTask :=
  s.tasks.find? (fun t => t.id = taskId)

/-- Lookup of the task object with sequence number `k`. -/
def lookupSeq (s : SysState) (k : Nat) : Option BackgroundTask :=
  s.tasks.find? (fun t => t.seq = k)

/-- Mutation of the task object with sequence number `k` in place. -/
def updateSeq (k : Nat) (f : BackgroundTask → BackgroundTask) (s : SysState) : SysState :=
  { s with tasks := s.tasks.map (fun t => if t.seq = k then f t else t) }

/-- The eligibility test of `processPendingTasks`:
`now - task.createdAt >= task.delay` over JavaScript numbers. -/
def shouldExecute (now createdAt delay : Nat) : Bool :=
  (delay : Int) ≤ (now : Int) - (createdAt : Int)

/-- Comparator `(a, b) => a.createdAt - b.createdAt` used to order the
pending tasks of a tick, as the relation it sorts ascending by. -/
def taskLe (a b : BackgroundTask) : Prop :=
  a.createdAt ≤ b.createdAt

instance : DecidableRel taskLe := fun a b => inferInstanceAs (Decidable (a.createdAt ≤ b.createdAt))

/-- The body of the per-task work of one tick: re-check that the task is
still `pending` (both the loop guard and the guard at the top of
`executeTask`), check eligibility, and if both hold flip the task to
`running`, stamp `startedAt`, and issue the command host call (recorded in
the log and in the in-flight set). -/
def tickStep (now : Nat) (s : SysState) (k : Nat) : SysState :=
  match lookupSeq s k with
  | none => s
  | some t =>
    if t.status = .pending then
      if shouldExecute now t.createdAt t.delay then
        { (updateSeq k (fun u => { u with status := .running, startedAt := some now }) s) with
          hostCalls := s.hostCalls ++ [HostCall.task k t.command t.args],
          outstanding := s.outstanding ++ [k] }
      else s
    else s

/-- The snapshot taken at the top of a tick: tasks currently `pending`,
sorted ascending by `createdAt` (JavaScript `Array.sort` is stable, modelled
by insertion sort), reduced to their identities. -/
def pendingSeqs (s : SysState) : List Nat :=
  (((s.tasks.filter (fun t => t.status = .pending)).insertionSort taskLe).map (fun t => t.seq))

/-- Method `BackgroundTaskExecutor.processPendingTasks`: one tick of the
`setInterval` processor.  Returns immediately when the processor has been
stopped, otherwise walks the sorted pending snapshot. -/
def processPendingTasks (now : Nat) (s : SysState) : SysState :=
  if s.isRunning then (pendingSeqs s).foldl (tickStep now) s else s

/-- The success continuation of `executeTask`: when the awaited command
resolves, the task object is stamped `completed` with `completedAt` and
`result` — with no check that it is still `running`.  The map shows the
mutation exactly when the object is still stored (ids are never reused). -/
def completeTask (k : Nat) (result : String) (now : Nat) (s : SysState) : SysState :=
  let s' := updateSeq k
    (fun t => { t with status := .completed, completedAt := some now, result := some result }) s
  { s' with outstanding := s'.outstanding.erase k }

/-- The catch continuation of `executeTask`: the task object is stamped
`failed` with `completedAt` and the error message, again unconditionally. -/
def failTask (k : Nat) (error : String) (now : Nat) (s : SysState) : SysState :=
  let s' := updateSeq k
    (fun t => { t with status := .failed, completedAt := some now, error := some error }) s
  { s' with outstanding := s'.outstanding.erase k }

/-- Replace the first task whose id matches, as a mutation through
`Map.get(taskId)` does. -/
def updateFirstById (taskId : String) (f : BackgroundTask → BackgroundTask) :
    List BackgroundTask → List BackgroundTask
  | [] => []
  | t :: ts => if t.id = taskId then f t :: ts else t :: updateFirstById taskId f ts

/-- Method `BackgroundTaskExecutor.cancelTask`: a task that is `pending` or
`running` is marked `cancelled` with `completedAt` stamped, and the call
reports whether it did anything. -/
def cancelTask (taskId : String) (now : Nat) (s : SysState) : Bool × SysState :=
  match getTask s taskId with
  | some t =>
    if t.status = .pending ∨ t.status = .running then
      let cancelled := updateFirstById taskId
        (fun u => { u with status := .cancelled, completedAt := some now }) s.tasks
      (true, { s with tasks := cancelled })
    else (false, s)
  | none => (false, s)

/-- Method `BackgroundTaskExecutor.clearCompletedTasks`: delete every task whose
status is `completed`, `failed` or `cancelled`; return how many. -/
def clearCompletedTasks (s : SysState) : Nat × SysState :=
  let isDone := fun (t : BackgroundTask) =>
    t.status = .completed ∨ t.status = .failed ∨ t.status = .cancelled
  ((s.tasks.filter (fun t => isDone t)).length,
   { s with tasks := s.tasks.filter (fun t => ¬ isDone t) })

/-- Method `BackgroundTaskExecutor.clearAllTasks`: empty the map, return the old
size. -/
def clearAllTasks (s : SysState) : Nat × SysState :=
  (s.tasks.length, { s with tasks := [] })

/-- Method `BackgroundTaskExecutor.getTaskStats`. -/
def getTaskStats (s : SysState) : TaskStats :=
  { total := s.tasks.length,
    pending := (s.tasks.filter (fun t => t.status = .pending)).length,
    running := (s.tasks.filter (fun t => t.status = .running)).length,
    completed := (s.tasks.filter (fun t => t.status = .completed)).length,
    failed := (s.tasks.filter (fun t => t.status = .failed)).length,
    cancelled := (s.tasks.filter (fun t => t.status = .cancelled)).length }

/-- Method `BackgroundTaskExecutor.stop`: clear the interval and lower the flag. -/
def stop (s : SysState) : SysState :=
  { s with isRunning := false }

/-- Method `BackgroundTaskExecutor.dispose`: stop the processor, then clear all
tasks unconditionally. -/
def dispose (s : SysState) : SysState :=
  (clearAllTasks (stop s)).2

/-- The test `allowed.endsWith('*')`: the last character is the wildcard
marker. -/
def strEndsWithStar (s : String) : Bool :=
  match s.data.getLast? with
  | some c => c.toNat = 42
  | none => false

/-- The prefix extraction `allowed.slice(0, -1)`: drop the last character. -/
def strDropLast (s : String) : String :=
  String.mk s.data.dropLast

/-- Character-list prefix test, comparing code points. -/
def listPrefixOf : List Char → List Char → Bool
  | [], _ => true
  | _ :: _, [] => false
  | p :: ps, c :: cs => if p.toNat = c.toNat then listPrefixOf ps cs else false

/-- The test `command.startsWith(prefix)`. -/
def strStartsWith (s p : String) : Bool :=
  listPrefixOf p.data s.data

/-- Method `CommandExecutor.isCommandAllowed`: fail-open on an empty allow-list,
otherwise exact match, or prefix match for entries with a trailing `*`
(the marker is stripped with `slice(0, -1)`). -/
def isCommandAllowed (allowedCommands : List String) (command : String) : Bool :=
  if allowedCommands.length = 0 then
    true
  else
    allowedCommands.any (fun allowed =>
      if strEndsWithStar allowed then
        strStartsWith command (strDropLast allowed)
      else
        command = allowed)

/-- The configuration snapshot held by `CommandExecutor`. -/
structure ExecConfig where
  allowedCommands : List String
  asyncExecution : Bool
  executionDelay : Nat
deriving DecidableEq, Repr

/-- The value `CommandExecutor.executeCommand` resolves with when it does
not throw: the async acknowledgement (success true), the sync success, or
the caught sync host failure (success false). -/
inductive ExecOutcome
  | asyncAck (taskId : String) (executionDelay : Nat) (queueLength : Nat) (stats : TaskStats)
  | syncOk (result : String)
  | syncFail (error : String)
deriving DecidableEq, Repr

/-- The `success` field of the shaped result. -/
def ExecOutcome.success : ExecOutcome → Bool
  | .asyncAck _ _ _ _ => true
  | .syncOk _ => true
  | .syncFail _ => false

/-- Method `CommandExecutor.executeCommand`: throw (`Except.error`) when the gate
rejects; in async mode submit a background task and acknowledge with the
queue length (pending + running, sampled after the submit) and the stats
snapshot; in sync mode call the host directly and shape success or caught
failure. -/
def executeCommand (cfg : ExecConfig) (host : String → List String → Except String String)
    (command : String) (args : List String) (now : Nat) (s : SysState) :
    Except String ExecOutcome × SysState :=
  if isCommandAllowed cfg.allowedCommands command then
    if cfg.asyncExecution then
      let r := submitTask command args cfg.executionDelay now s
      let stats := getTaskStats r.2
      (Except.ok (.asyncAck r.1 cfg.executionDelay (stats.pending + stats.running) stats), r.2)
    else
      match host command args with
      | Except.ok res =>
        (Except.ok (.syncOk res), { s with hostCalls := s.hostCalls ++ [HostCall.sync command args] })
      | Except.error e =>
        (Except.ok (.syncFail e), { s with hostCalls := s.hostCalls ++ [HostCall.sync command args] })
  else
    (Except.error ("Command \x27" ++ command ++ "\x27 is not allowed"), s)

/-- Method `CommandExecutor.updateAsyncConfig`, reduced to its effect on the
background executor when the refreshed snapshot has `asyncExecution` set to
`newAsync`: when async execution is now disabled and pending tasks exist,
surface one warning and clear all tasks.  The returned number counts the
warnings raised. -/
def updateAsyncConfig (newAsync : Bool) (s : SysState) : Nat × SysState :=
  if newAsync = false ∧ 0 < (getTaskStats s).pending then
    (1, (clearAllTasks s).2)
  else
    (0, s)

/-- Lexicographic comparison of character sequences by code point, the
order the default JavaScript `Array.sort` comparator induces on strings. -/
def lexLeb : List Char → List Char → Bool
  | [], _ => true
  | _ :: _, [] => false
  | a :: as, b :: bs =>
    if a.toNat < b.toNat then true
    else if b.toNat < a.toNat then false
    else lexLeb as bs

/-- The lexicographic order on strings used by `commands.sort()`. -/
def strLe (a b : String) : Prop := lexLeb a.data b.data = true

instance : DecidableRel strLe := fun _ _ => inferInstanceAs (Decidable (_ = true))

theorem lexLeb_total (as bs : List Char) : lexLeb as bs = true ∨ lexLeb bs as = true := by
  induction as generalizing bs with
  | nil => left; rfl
  | cons a as ih =>
    cases bs with
    | nil => right; rfl
    | cons b bs =>
      by_cases h1 : a.toNat < b.toNat
      · left; simp [lexLeb, h1]
      · by_cases h2 : b.toNat < a.toNat
        · right; simp [lexLeb, h2]
        · simpa [lexLeb, h1, h2] using ih bs

theorem lexLeb_trans (as bs cs : List Char) (h1 : lexLeb as bs = true)
    (h2 : lexLeb bs cs = true) : lexLeb as cs = true := by
  induction as generalizing bs cs with
  | nil => rfl
  | cons a as ih =>
    cases bs with
    | nil => simp [lexLeb] at h1
    | cons b bs =>
      cases cs with
      | nil => simp [lexLeb] at h2
      | cons c cs =>
        simp only [lexLeb] at h1 h2 ⊢
        by_cases hab : a.toNat < b.toNat
        · by_cases hbc : b.toNat < c.toNat
          · have hac : a.toNat < c.toNat := by omega
            simp [hac]
          · by_cases hcb : c.toNat < b.toNat
            · simp [hbc, hcb] at h2
            · have hac : a.toNat < c.toNat := by omega
              simp [hac]
        · by_cases hba : b.toNat < a.toNat
          · simp [hab, hba] at h1
          · simp only [if_neg hab, if_neg hba] at h1
            by_cases hbc : b.toNat < c.toNat
            · have hac : a.toNat < c.toNat := by omega
              simp [hac]
            · by_cases hcb : c.toNat < b.toNat
              · simp [hbc, hcb] at h2
              · simp only [if_neg hbc, if_neg hcb] at h2
                have hac : ¬ a.toNat < c.toNat := by omega
                have hca : ¬ c.toNat < a.toNat := by omega
                simp only [if_neg hac, if_neg hca]
                exact ih bs cs h1 h2

instance : IsTotal String strLe := ⟨fun a b => lexLeb_total a.data b.data⟩

instance : IsTrans String strLe := ⟨fun a b c => lexLeb_trans a.data b.data c.data⟩

/-- Method `CommandExecutor.getAvailableCommands`: filter the host command names
through the gate when the allow-list is non-empty, then sort
lexicographically (JavaScript `Array.sort` is stable, modelled by
insertion sort). -/
def getAvailableCommands (allowedCommands : List String) (hostCommands : List String) :
    List String :=
  let filtered :=
    if 0 < allowedCommands.length then
      hostCommands.filter (fun cmd => isCommandAllowed allowedCommands cmd)
    else hostCommands
  filtered.insertionSort strLe

/-- Result at the FastMCP tool boundary: the `isError` marker plus the
rendered text. -/
structure ToolResult where
  isError : Bool
  text : String
deriving DecidableEq, Repr

/-- The `execute_vscode_command` tool handler: delegate to
`executeCommand`, catch anything thrown into an `isError` result.  The
JSON rendering of the success payload is abstracted to a constant prefix. -/
def executeVSCodeCommandTool (cfg : ExecConfig)
    (host : String → List String → Except String String)
    (command : String) (args : List String) (now : Nat) (s : SysState) :
    ToolResult × SysState :=
  match executeCommand cfg host command args now s with
  | (Except.ok _, s') => ({ isError := false, text := "命令执行结果: " }, s')
  | (Except.error msg, s') => ({ isError := true, text := "命令执行失败: " ++ msg }, s')

/-- Shape of the `list_vscode_commands` tool response: the first 20 names
and whether the truncation notice `...(还有更多)` was appended. -/
structure ListCommandsResult where
  shown : List String
  hasMore : Bool
  count : Nat
deriving DecidableEq, Repr

/-- The `list_vscode_commands` tool handler over the host command set. -/
def listVSCodeCommandsTool (allowedCommands : List String) (hostCommands : List String) :
    ListCommandsResult :=
  let commands := getAvailableCommands allowedCommands hostCommands
  { shown := commands.take 20,
    hasMore := decide (20 < commands.length),
    count := commands.length }

/-- The settled command promise of a background task, as the event the
`executeTask` continuations react to. -/
inductive HostOutcomeEvent
  | completed (k : Nat) (result : String) (now : Nat)
  | failed (k : Nat) (error : String) (now : Nat)
deriving DecidableEq, Repr

/-- Run the continuation belonging to one settled command promise. -/
def applyOutcome (s : SysState) : HostOutcomeEvent → SysState
  | .completed k r now => completeTask k r now s
  | .failed k e now => failTask k e now s

/-- Run the continuations of a sequence of settled command promises. -/
def applyOutcomes (s : SysState) (events : List HostOutcomeEvent) : SysState :=
  events.foldl applyOutcome s

/-- The events through which the executor state evolves at run time: a
gateway invocation, a scheduler tick, a cancellation request, the
settlement of an in-flight command promise, the clear operations, a
configuration refresh, and shutdown. -/
inductive Step : SysState → SysState → Prop
  | exec (cfg : ExecConfig) (host : String → List String → Except String String)
      (command : String) (args : List String) (now : Nat) (s : SysState) :
      Step s (executeCommand cfg host command args now s).2
  | tick (now : Nat) (s : SysState) : Step s (processPendingTasks now s)
  | cancel (taskId : String) (now : Nat) (s : SysState) : Step s (cancelTask taskId now s).2
  | complete (k : Nat) (result : String) (now : Nat) (s : SysState)
      (h : k ∈ s.outstanding) : Step s (completeTask k result now s)
  | failStep (k : Nat) (error : String) (now : Nat) (s : SysState)
      (h : k ∈ s.outstanding) : Step s (failTask k error now s)
  | clearCompleted (s : SysState) : Step s (clearCompletedTasks s).2
  | clearAll (s : SysState) : Step s (clearAllTasks s).2
  | refreshConfig (newAsync : Bool) (s : SysState) : Step s (updateAsyncConfig newAsync s).2
  | stopStep (s : SysState) : Step s (stop s)
  | disposeStep (s : SysState) : Step s (dispose s)

/-- States reachable from a freshly constructed executor. -/
inductive Reachable : SysState → Prop
  | init : Reachable initState
  | step {s s' : SysState} : Reachable s → Step s s' → Reachable s'

/-- The reflexive-transitive closure of `Step`. -/
inductive Steps : SysState → SysState → Prop
  | refl (s : SysState) : Steps s s
  | tail {s t u : SysState} : Steps s t → Step t u → Steps s u

/-- A command host that always succeeds, for concrete executions. -/
def demoHost : String → List String → Except String String :=
  fun _ _ => Except.ok ("ok")

/-- Allow-everything asynchronous configuration with no delay. -/
def demoCfg : ExecConfig :=
  { allowedCommands := [], asyncExecution := true, executionDelay := 0 }

/-- Asynchronous configuration with a 1000 ms delay. -/
def demoCfgSlow : ExecConfig :=
  { allowedCommands := [], asyncExecution := true, executionDelay := 1000 }

/-- A non-empty allow-list that rejects most commands. -/
def demoCfgDeny : ExecConfig :=
  { allowedCommands := ["editor.*", "workbench.action.files.save"],
    asyncExecution := true, executionDelay := 0 }

/-- One task submitted at time 0. -/
def demoS1 : SysState := (executeCommand demoCfg demoHost ("test.one") [] 0 initState).2

/-- The tick at time 0 starts the task: it is now `running`. -/
def demoS2 : SysState := processPendingTasks 0 demoS1

/-- The running task is cancelled at time 5. -/
def demoS3 : SysState := (cancelTask ("bg_task_1_0") 5 demoS2).2

/-- The still-outstanding command promise resolves at time 9. -/
def demoS4 : SysState := completeTask 1 "res" 9 demoS3

/-- A second task, submitted at time 1 with a 1000 ms delay, joins while
the first is running: one `running` and one `pending` task. -/
def demoS5 : SysState := (executeCommand demoCfgSlow demoHost ("test.two") [] 1 demoS2).2

/-- The inductive invariant of the executor state: counter freshness,
uniqueness of task identities, at most one host call per task, host calls
only after the `pending → running` flip, and clean timestamp/outstanding
bookkeeping per status. -/
structure Inv (s : SysState) : Prop where
  seq_le : ∀ t ∈ s.tasks, t.seq ≤ s.taskCounter
  seq_nodup : (s.tasks.map (fun t => t.seq)).Nodup
  call_le : ∀ c ∈ s.hostCalls, ∀ k, c.taskSeq? = some k → k ≤ s.taskCounter
  out_le : ∀ k ∈ s.outstanding, k ≤ s.taskCounter
  out_nodup : s.outstanding.Nodup
  out_call : ∀ k ∈ s.outstanding, callCount s k = 1
  call_once : ∀ k, callCount s k ≤ 1
  pending_clean : ∀ t ∈ s.tasks, t.status = .pending →
    t.startedAt = none ∧ t.completedAt = none
  running_clean : ∀ t ∈ s.tasks, t.status = .running → t.completedAt = none
  unstarted_fresh : ∀ t ∈ s.tasks, t.startedAt = none →
    callCount s t.seq = 0 ∧ t.seq ∉ s.outstanding
  terminal_out : ∀ t ∈ s.tasks, (t.status = .completed ∨ t.status = .failed) →
    t.seq ∉ s.outstanding

/-- The task entity `k` is cancelled in every stored copy, has no
in-flight host call, and its identity is already taken (no future submit
can mint it again).  This is the state predicate that makes a
cancelled-while-pending task permanent. -/
def CancelledForever (k : Nat) (s : SysState) : Prop :=
  (∀ u ∈ s.tasks, u.seq = k → u.status = .cancelled) ∧
  k ∉ s.outstanding ∧ k ≤ s.taskCounter

theorem demoS1_reachable : Reachable demoS1 :=
  Reachable.init.step (Step.exec demoCfg demoHost ("test.one") [] 0 initState)

theorem demoS2_reachable : Reachable demoS2 :=
  demoS1_reachable.step (Step.tick 0 demoS1)

theorem demoS3_reachable : Reachable demoS3 :=
  demoS2_reachable.step (Step.cancel ("bg_task_1_0") 5 demoS2)

theorem demoS5_reachable : Reachable demoS5 :=
  demoS2_reachable.step (Step.exec demoCfgSlow demoHost ("test.two") [] 1 demoS2)

/-- C1: on an empty allow-list `isCommandAllowed` returns true; on a
non-empty allow-list it returns true iff the command equals an entry
without a trailing wildcard marker, or some entry ends in the marker and
the command starts with that entry with the marker stripped. -/
theorem C1_isCommandAllowed_spec (allowed : List String) (command : String) :
    (allowed = [] → isCommandAllowed allowed command = true) ∧
    (allowed ≠ [] →
      (isCommandAllowed allowed command = true ↔
        (∃ a ∈ allowed, strEndsWithStar a = false ∧ command = a) ∨
        (∃ a ∈ allowed, strEndsWithStar a = true ∧
          strStartsWith command (strDropLast a) = true))) := by
  constructor
  · intro h
    subst h
    rfl
  · intro h
    have hlen : ¬ allowed.length = 0 := by
      simpa [List.length_eq_zero] using h
    rw [isCommandAllowed, if_neg hlen, List.any_eq_true]
    constructor
    · rintro ⟨a, ha, hp⟩
      by_cases he : strEndsWithStar a = true
      · right
        refine ⟨a, ha, he, ?_⟩
        simpa [he] using hp
      · left
        refine ⟨a, ha, by simpa using he, ?_⟩
        simpa [he] using hp
    · rintro (⟨a, ha, hne, hcmd⟩ | ⟨a, ha, he, hs⟩)
      · exact ⟨a, ha, by simp [hne, hcmd]⟩
      · exact ⟨a, ha, by simp [he, hs]⟩

/-- Witness for C1 at a concrete allow-list and command. -/
theorem C1_witness : isCommandAllowed ["a.*", "b.exec"] "a.run" = true :=
  ((C1_isCommandAllowed_spec ["a.*", "b.exec"] "a.run").2 (by decide)).mpr
    (Or.inr ⟨"a.*", by decide, by decide, by decide⟩)

/-- C2: a command rejected by a non-empty allow-list makes
`executeCommand` throw the not-allowed error; the tool handler catches it
into an `isError` result, and the executor state — tasks, counter,
host-call log — is completely untouched, in async as well as sync mode. -/
theorem C2_notAllowed_no_effect (cfg : ExecConfig)
    (host : String → List String → Except String String)
    (command : String) (args : List String) (now : Nat) (s : SysState)
    (_hne : cfg.allowedCommands ≠ [])
    (hnot : isCommandAllowed cfg.allowedCommands command = false) :
    (executeVSCodeCommandTool cfg host command args now s).1.isError = true ∧
    (executeVSCodeCommandTool cfg host command args now s).1.text =
      "命令执行失败: " ++ ("Command \x27" ++ command ++ "\x27 is not allowed") ∧
    (executeCommand cfg host command args now s).1 =
      Except.error ("Command \x27" ++ command ++ "\x27 is not allowed") ∧
    (executeVSCodeCommandTool cfg host command args now s).2 = s := by
  refine ⟨?_, ?_, ?_, ?_⟩ <;>
    simp [executeVSCodeCommandTool, executeCommand, hnot]

/-- Witness for C2: a concrete rejected command leaves a concrete state
unchanged. -/
theorem C2_witness :
    ((demoCfgDeny.allowedCommands ≠ []) ∧
      isCommandAllowed demoCfgDeny.allowedCommands ("evil.cmd") = false) ∧
    (executeVSCodeCommandTool demoCfgDeny demoHost ("evil.cmd") [] 3 demoS2).1.isError = true ∧
    (executeVSCodeCommandTool demoCfgDeny demoHost ("evil.cmd") [] 3 demoS2).2 = demoS2 :=
  ⟨⟨by decide, by decide⟩,
    (C2_notAllowed_no_effect demoCfgDeny demoHost ("evil.cmd") [] 3 demoS2
      (by decide) (by decide)).1,
    (C2_notAllowed_no_effect demoCfgDeny demoHost ("evil.cmd") [] 3 demoS2
      (by decide) (by decide)).2.2.2⟩

/-- C5 counterexample: in a concrete state with one `running` and one
`pending` task, disabling async mode raises the warning but empties the
whole Task Store — the running task's record is NOT left in place, so the
claim that running tasks' records are kept is false on the code. -/
theorem C5_counterexample :
    (getTask demoS5 ("bg_task_1_0")).map (fun t => t.status) = some .running ∧
    (getTaskStats demoS5).pending = 1 ∧
    (updateAsyncConfig false demoS5).1 = 1 ∧
    (updateAsyncConfig false demoS5).2.tasks = [] ∧
    getTask (updateAsyncConfig false demoS5).2 ("bg_task_1_0") = none :=
  ⟨by decide, by decide, by decide, by decide, by decide⟩

/-- C5 (amended): a refresh that disables async mode while at least one
task is pending raises exactly one warning and clears the whole Task Store
— pending and running records alike — while the processor flag, the
host-call log and the in-flight command promises are untouched (running
host calls are not interrupted, their eventual settlement just finds no
stored record). -/
theorem C5_disable_async_purges_all (s : SysState)
    (h : 0 < (getTaskStats s).pending) :
    (updateAsyncConfig false s).1 = 1 ∧
    (updateAsyncConfig false s).2.tasks = [] ∧
    (updateAsyncConfig false s).2.taskCounter = s.taskCounter ∧
    (updateAsyncConfig false s).2.isRunning = s.isRunning ∧
    (updateAsyncConfig false s).2.hostCalls = s.hostCalls ∧
    (updateAsyncConfig false s).2.outstanding = s.outstanding := by
  refine ⟨?_, ?_, ?_, ?_, ?_, ?_⟩ <;> simp [updateAsyncConfig, h, clearAllTasks]

/-- Witness for C5 (amended) on the concrete mixed state. -/
theorem C5_witness :
    0 < (getTaskStats demoS5).pending ∧
    (updateAsyncConfig false demoS5).1 = 1 ∧
    (updateAsyncConfig false demoS5).2.tasks = [] :=
  ⟨by decide, (C5_disable_async_purges_all demoS5 (by decide)).1,
    (C5_disable_async_purges_all demoS5 (by decide)).2.1⟩

theorem applyOutcome_tasks_nil {s : SysState} (h : s.tasks = [])
    (e : HostOutcomeEvent) : (applyOutcome s e).tasks = [] := by
  cases e <;> simp [applyOutcome, completeTask, failTask, updateSeq, h]

theorem applyOutcomes_tasks_nil {s : SysState} (h : s.tasks = [])
    (events : List HostOutcomeEvent) : (applyOutcomes s events).tasks = [] := by
  induction events generalizing s with
  | nil => exact h
  | cons e es ih => exact ih (applyOutcome_tasks_nil h e)

/-- C8: `dispose` stops the recurring tick (a further tick is a no-op)
and clears the Task Store unconditionally; however many outstanding
command promises later resolve or reject, the store stays empty and
`getTask` observes nothing for any id. -/
theorem C8_dispose_discards_everything (s : SysState)
    (events : List HostOutcomeEvent) (taskId : String) (now : Nat) :
    (dispose s).isRunning = false ∧
    processPendingTasks now (dispose s) = dispose s ∧
    (dispose s).tasks = [] ∧
    (applyOutcomes (dispose s) events).tasks = [] ∧
    getTask (applyOutcomes (dispose s) events) taskId = none := by
  have hnil : (dispose s).tasks = [] := rfl
  have hall := applyOutcomes_tasks_nil hnil events
  refine ⟨rfl, ?_, hnil, hall, ?_⟩
  · simp [processPendingTasks, dispose, clearAllTasks, stop]
  · simp [getTask, hall]

/-- C9: the list-commands tool shows the host's command names filtered
through the gate when the allow-list is non-empty (all of them when it is
empty), sorted lexicographically, truncated to the first 20, with the
truncation indicator exactly when more than 20 names survive the filter;
and the claim's concrete scenario evaluates as stated. -/
theorem C9_listCommands_spec (allowedCommands hostCommands : List String) :
    ((listVSCodeCommandsTool allowedCommands hostCommands).shown).Sorted strLe ∧
    (getAvailableCommands allowedCommands hostCommands).Perm
      (if 0 < allowedCommands.length then
        hostCommands.filter (fun cmd => isCommandAllowed allowedCommands cmd)
      else hostCommands) ∧
    (listVSCodeCommandsTool allowedCommands hostCommands).shown =
      (getAvailableCommands allowedCommands hostCommands).take 20 ∧
    ((listVSCodeCommandsTool allowedCommands hostCommands).hasMore = true ↔
      20 < (if 0 < allowedCommands.length then
        hostCommands.filter (fun cmd => isCommandAllowed allowedCommands cmd)
      else hostCommands).length) ∧
    listVSCodeCommandsTool ["a.*", "b.exec"] ["a.run", "a.stop", "b.exec", "c.other"] =
      { shown := ["a.run", "a.stop", "b.exec"], hasMore := false, count := 3 } := by
  have hsorted : (getAvailableCommands allowedCommands hostCommands).Sorted strLe :=
    List.sorted_insertionSort strLe _
  have hperm : (getAvailableCommands allowedCommands hostCommands).Perm
      (if 0 < allowedCommands.length then
        hostCommands.filter (fun cmd => isCommandAllowed allowedCommands cmd)
      else hostCommands) :=
    List.perm_insertionSort strLe _
  refine ⟨?_, hperm, rfl, ?_, by decide⟩
  · exact List.Pairwise.sublist (List.take_sublist 20 _) hsorted
  · simp [listVSCodeCommandsTool, decide_eq_true_iff, hperm.length_eq]

theorem find?_map_update (ts : List BackgroundTask) (k : Nat)
    (f : BackgroundTask → BackgroundTask) (hf : ∀ u, (f u).seq = u.seq) :
    (ts.map (fun t => if t.seq = k then f t else t)).find? (fun t => t.seq = k) =
      (ts.find? (fun t => t.seq = k)).map f := by
  induction ts with
  | nil => rfl
  | cons t ts ih =>
    by_cases h : t.seq = k
    · simp [List.find?_cons, h, hf]
    · simp [List.find?_cons, h, ih]

theorem find?_map_update_ne (ts : List BackgroundTask) (j k : Nat) (hjk : j ≠ k)
    (f : BackgroundTask → BackgroundTask) (hf : ∀ u, (f u).seq = u.seq) :
    (ts.map (fun t => if t.seq = j then f t else t)).find? (fun t => t.seq = k) =
      ts.find? (fun t => t.seq = k) := by
  induction ts with
  | nil => rfl
  | cons t ts ih =>
    by_cases h : t.seq = j
    · have hk : ¬ t.seq = k := by
        rw [h]; exact hjk
      simp [List.find?_cons, h, hf, hk, hjk, ih]
    · simp [List.find?_cons, h, ih]

theorem lookupSeq_tickStep_ne {j k : Nat} (now : Nat) (s : SysState) (h : j ≠ k) :
    lookupSeq (tickStep now s j) k = lookupSeq s k := by
  unfold tickStep
  cases hl : lookupSeq s j with
  | none => rfl
  | some t =>
    by_cases hp : t.status = .pending
    · by_cases hex : shouldExecute now t.createdAt t.delay = true
      · simp only [hp, hex, if_true]
        exact find?_map_update_ne s.tasks j k h _ (fun u => rfl)
      · simp [hp, hex]
    · simp [hp]

theorem lookupSeq_foldl_preserved (now : Nat) (L : List Nat) (s : SysState)
    (k : Nat) (t : BackgroundTask) (h : lookupSeq s k = some t)
    (hguard : t.status ≠ .pending ∨ shouldExecute now t.createdAt t.delay = false) :
    lookupSeq (L.foldl (tickStep now) s) k = some t := by
  induction L generalizing s with
  | nil => exact h
  | cons j L ih =>
    show lookupSeq (L.foldl (tickStep now) (tickStep now s j)) k = some t
    by_cases hjk : j = k
    · subst hjk
      have hid : tickStep now s j = s := by
        unfold tickStep
        rw [h]
        rcases hguard with hg | hg
        · simp [hg]
        · simp [hg]
      rw [hid]
      exact ih s h
    · refine ih (tickStep now s j) ?_
      rw [lookupSeq_tickStep_ne now s hjk]
      exact h

theorem lookupSeq_tickStep_fire (now : Nat) (s : SysState) (k : Nat)
    (t : BackgroundTask) (h : lookupSeq s k = some t)
    (hp : t.status = .pending) (hex : shouldExecute now t.createdAt t.delay = true) :
    lookupSeq (tickStep now s k) k =
      some { t with status := .running, startedAt := some now } := by
  unfold tickStep
  rw [h]
  simp only [hp, hex, if_true]
  show (s.tasks.map _).find? _ = _
  rw [find?_map_update s.tasks k
    (fun u => { u with status := .running, startedAt := some now }) (fun u => rfl)]
  rw [show s.tasks.find? (fun u => u.seq = k) = some t from h]
  rfl

theorem lookupSeq_foldl_fires (now : Nat) (L : List Nat) (s : SysState)
    (k : Nat) (t : BackgroundTask) (h : lookupSeq s k = some t)
    (hp : t.status = .pending) (hex : shouldExecute now t.createdAt t.delay = true)
    (hmem : k ∈ L) :
    lookupSeq (L.foldl (tickStep now) s) k =
      some { t with status := .running, startedAt := some now } := by
  induction L generalizing s with
  | nil => cases hmem
  | cons j L ih =>
    show lookupSeq (L.foldl (tickStep now) (tickStep now s j)) k = _
    by_cases hjk : j = k
    · subst hjk
      exact lookupSeq_foldl_preserved now L _ j _
        (lookupSeq_tickStep_fire now s j t h hp hex) (Or.inl (by simp))
    · have hmem' : k ∈ L := by
        cases hmem with
        | head => exact absurd rfl hjk
        | tail _ hm => exact hm
      refine ih (tickStep now s j) ?_ hmem'
      rw [lookupSeq_tickStep_ne now s hjk]
      exact h

theorem mem_pendingSeqs {s : SysState} {k : Nat} {t : BackgroundTask}
    (h : lookupSeq s k = some t) (hp : t.status = .pending) : k ∈ pendingSeqs s := by
  have hmem : t ∈ s.tasks := List.mem_of_find?_eq_some h
  have hseq : t.seq = k := by simpa using List.find?_some h
  have hfil : t ∈ s.tasks.filter (fun u => u.status = .pending) :=
    List.mem_filter.mpr ⟨hmem, by simp [hp]⟩
  have hsort : t ∈ (s.tasks.filter (fun u => u.status = .pending)).insertionSort taskLe :=
    ((List.perm_insertionSort taskLe _).mem_iff).mpr hfil
  exact hseq ▸ List.mem_map_of_mem _ hsort

/-- C4: a pending task is never started by a tick at a time `now` with
`now - createdAt < delay` (its record is completely unchanged); a pending
task with delay 0 is started — flipped to `running` with `startedAt`
stamped — by the very next tick of the live processor. -/
theorem C4_delay_respected (s : SysState) (k now : Nat) (t : BackgroundTask)
    (ht : lookupSeq s k = some t) (hp : t.status = .pending) :
    ((now : Int) - (t.createdAt : Int) < (t.delay : Int) →
      lookupSeq (processPendingTasks now s) k = some t) ∧
    (t.delay = 0 → t.createdAt ≤ now → s.isRunning = true →
      lookupSeq (processPendingTasks now s) k =
        some { t with status := .running, startedAt := some now }) := by
  constructor
  · intro hlt
    have hex : shouldExecute now t.createdAt t.delay = false := by
      simp only [shouldExecute, decide_eq_false_iff_not, not_le]
      exact hlt
    unfold processPendingTasks
    by_cases hr : s.isRunning
    · simp only [hr, if_true]
      exact lookupSeq_foldl_preserved now _ s k t ht (Or.inr hex)
    · simp only [hr, if_false]
      exact ht
  · intro hd hc hr
    have hex : shouldExecute now t.createdAt t.delay = true := by
      simp only [shouldExecute, decide_eq_true_iff, hd]
      omega
    unfold processPendingTasks
    simp only [hr, if_true]
    exact lookupSeq_foldl_fires now _ s k t ht hp hex (mem_pendingSeqs ht hp)

/-- Witness for C4: the delayed demo task survives an early tick
untouched, and the delay-0 demo task is started by the tick at time 0. -/
theorem C4_witness :
    lookupSeq (processPendingTasks 500 demoS5) 2 =
      some ⟨2, "bg_task_2_1", "test.two", [], 1000, .pending, 1, none, none, none, none⟩ ∧
    lookupSeq (processPendingTasks 0 demoS1) 1 =
      some ⟨1, "bg_task_1_0", "test.one", [], 0, .running, 0, some 0, none, none, none⟩ :=
  ⟨(C4_delay_respected demoS5 2 500
      ⟨2, "bg_task_2_1", "test.two", [], 1000, .pending, 1, none, none, none, none⟩
      (by decide) (by decide)).1 (by decide),
   (C4_delay_respected demoS1 1 0
      ⟨1, "bg_task_1_0", "test.one", [], 0, .pending, 0, none, none, none, none⟩
      (by decide) (by decide)).2 (by decide) (by decide) (by decide)⟩

theorem callsFor_append_task (calls : List HostCall) (k : Nat) (c : String)
    (a : List String) (j : Nat) :
    callsFor (calls ++ [HostCall.task k c a]) j =
      callsFor calls j + (if j = k then 1 else 0) := by
  by_cases h : j = k
  · subst h
    simp [callsFor, List.filter_append, HostCall.taskSeq?]
  · simp [callsFor, List.filter_append, HostCall.taskSeq?, Ne.symm h, h]

theorem callsFor_append_sync (calls : List HostCall) (c : String) (a : List String)
    (j : Nat) : callsFor (calls ++ [HostCall.sync c a]) j = callsFor calls j := by
  simp [callsFor, List.filter_append, HostCall.taskSeq?]

theorem callsFor_eq_zero_of_bounded (calls : List HostCall) (n : Nat)
    (h : ∀ c ∈ calls, ∀ k, HostCall.taskSeq? c = some k → k ≤ n)
    (j : Nat) (hj : n < j) : callsFor calls j = 0 := by
  unfold callsFor
  rw [List.length_eq_zero, List.filter_eq_nil_iff]
  intro c hc
  simp only [decide_eq_true_iff]
  intro he
  have := h c hc j he
  omega

theorem seq_of_mem_update {ts : List BackgroundTask} {k : Nat}
    {f : BackgroundTask → BackgroundTask} {u' : BackgroundTask}
    (h : u' ∈ ts.map (fun t => if t.seq = k then f t else t)) :
    ∃ u ∈ ts, ((u.seq = k ∧ u' = f u) ∨ (¬ u.seq = k ∧ u' = u)) := by
  rcases List.mem_map.mp h with ⟨u, hu, he⟩
  refine ⟨u, hu, ?_⟩
  by_cases hs : u.seq = k
  · left
    exact ⟨hs, by rw [← he]; simp [hs]⟩
  · right
    exact ⟨hs, by rw [← he]; simp [hs]⟩

theorem map_seq_update (ts : List BackgroundTask) (k : Nat)
    (f : BackgroundTask → BackgroundTask) (hf : ∀ u, (f u).seq = u.seq) :
    ((ts.map (fun t => if t.seq = k then f t else t)).map (fun t => t.seq)) =
      ts.map (fun t => t.seq) := by
  rw [List.map_map]
  apply List.map_congr_left
  intro u _
  by_cases hs : u.seq = k <;> simp [Function.comp, hs, hf]

theorem mem_updateFirstById {ts : List BackgroundTask} {taskId : String}
    {f : BackgroundTask → BackgroundTask} {u' : BackgroundTask}
    (h : u' ∈ updateFirstById taskId f ts) :
    u' ∈ ts ∨ ∃ u, ts.find? (fun x => x.id = taskId) = some u ∧ u' = f u := by
  induction ts with
  | nil => cases h
  | cons t ts ih =>
    by_cases ht : t.id = taskId
    · rw [updateFirstById, if_pos ht] at h
      rcases List.mem_cons.mp h with he | hm
      · exact Or.inr ⟨t, by simp [List.find?_cons, ht], he⟩
      · exact Or.inl (List.mem_cons_of_mem t hm)
    · rw [updateFirstById, if_neg ht] at h
      rcases List.mem_cons.mp h with he | hm
      · exact Or.inl (he ▸ List.mem_cons_self t ts)
      · rcases ih hm with hin | ⟨u, hu, he⟩
        · exact Or.inl (List.mem_cons_of_mem t hin)
        · exact Or.inr ⟨u, by simp [List.find?_cons, ht, hu], he⟩

theorem updateFirstById_structure {ts : List BackgroundTask} {taskId : String}
    {t : BackgroundTask} (h : ts.find? (fun x => x.id = taskId) = some t)
    (f : BackgroundTask → BackgroundTask) :
    ∃ l₁ l₂, ts = l₁ ++ t :: l₂ ∧ updateFirstById taskId f ts = l₁ ++ f t :: l₂ ∧
      ∀ x ∈ l₁, ¬ x.id = taskId := by
  induction ts with
  | nil => cases h
  | cons u ts ih =>
    by_cases hu : u.id = taskId
    · have heq : u = t := by
        rw [List.find?_cons_of_pos _ (by simpa using hu)] at h
        exact Option.some.inj h
      subst heq
      refine ⟨[], ts, rfl, ?_, by simp⟩
      rw [updateFirstById, if_pos hu]
      rfl
    · rw [List.find?_cons_of_neg _ (by simpa using hu)] at h
      rcases ih h with ⟨l₁, l₂, he, hup, hl₁⟩
      refine ⟨u :: l₁, l₂, by rw [he]; rfl, ?_, ?_⟩
      · rw [updateFirstById, if_neg hu, hup]
        rfl
      · intro x hx
        rcases List.mem_cons.mp hx with hxu | hxm
        · exact hxu ▸ hu
        · exact hl₁ x hxm

theorem map_seq_updateFirstById (ts : List BackgroundTask) (taskId : String)
    (f : BackgroundTask → BackgroundTask) (hf : ∀ u, (f u).seq = u.seq) :
    ((updateFirstById taskId f ts).map (fun t => t.seq)) = ts.map (fun t => t.seq) := by
  induction ts with
  | nil => rfl
  | cons t ts ih =>
    by_cases ht : t.id = taskId
    · rw [updateFirstById, if_pos ht]
      simp [hf]
    · rw [updateFirstById, if_neg ht]
      simp [ih]

theorem eq_of_mem_of_seq_eq {ts : List BackgroundTask}
    (hN : (ts.map (fun t => t.seq)).Nodup) {u v : BackgroundTask}
    (hu : u ∈ ts) (hv : v ∈ ts) (h : u.seq = v.seq) : u = v :=
  List.inj_on_of_nodup_map hN hu hv h

theorem inv_init : Inv initState := by
  constructor <;> simp [initState, callCount, callsFor]

theorem inv_of_tasks_subset {s s' : SysState}
    (hinv : Inv s)
    (htasks : ∀ t ∈ s'.tasks, t ∈ s.tasks)
    (hsub : (s'.tasks.map (fun t => t.seq)).Nodup)
    (hc : s'.taskCounter = s.taskCounter) (hh : s'.hostCalls = s.hostCalls)
    (ho : s'.outstanding = s.outstanding) : Inv s' := by
  have hcc : ∀ k, callCount s' k = callCount s k := by
    intro k
    simp [callCount, hh]
  constructor
  · intro t ht
    rw [hc]
    exact hinv.seq_le t (htasks t ht)
  · exact hsub
  · intro c hc' k hk
    rw [hc]
    exact hinv.call_le c (hh ▸ hc') k hk
  · intro k hk
    rw [hc]
    exact hinv.out_le k (ho ▸ hk)
  · rw [ho]
    exact hinv.out_nodup
  · intro k hk
    rw [hcc]
    exact hinv.out_call k (ho ▸ hk)
  · intro k
    rw [hcc]
    exact hinv.call_once k
  · intro t ht
    exact hinv.pending_clean t (htasks t ht)
  · intro t ht
    exact hinv.running_clean t (htasks t ht)
  · intro t ht hs
    rw [hcc, ho]
    exact hinv.unstarted_fresh t (htasks t ht) hs
  · intro t ht hs
    rw [ho]
    exact hinv.terminal_out t (htasks t ht) hs

theorem inv_clearCompleted {s : SysState} (hinv : Inv s) :
    Inv (clearCompletedTasks s).2 := by
  refine inv_of_tasks_subset hinv ?_ ?_ rfl rfl rfl
  · intro t ht
    exact (List.mem_filter.mp ht).1
  · exact List.Nodup.sublist ((List.filter_sublist _).map _) hinv.seq_nodup

theorem inv_clearAll {s : SysState} (hinv : Inv s) : Inv (clearAllTasks s).2 := by
  refine inv_of_tasks_subset hinv ?_ ?_ rfl rfl rfl
  · intro t ht
    cases ht
  · simp [clearAllTasks]

theorem inv_stop {s : SysState} (hinv : Inv s) : Inv (stop s) := by
  refine inv_of_tasks_subset hinv (fun t ht => ht) hinv.seq_nodup rfl rfl rfl

theorem inv_dispose {s : SysState} (hinv : Inv s) : Inv (dispose s) :=
  inv_clearAll (inv_stop hinv)

theorem inv_updateAsyncConfig {s : SysState} (hinv : Inv s) (newAsync : Bool) :
    Inv (updateAsyncConfig newAsync s).2 := by
  unfold updateAsyncConfig
  split
  · exact inv_clearAll hinv
  · exact hinv

theorem inv_submit {s : SysState} (hinv : Inv s) (command : String)
    (args : List String) (delay now : Nat) :
    Inv (submitTask command args delay now s).2 := by
  have hfresh : ∀ j ∈ s.tasks.map (fun t => t.seq), j ≤ s.taskCounter := by
    intro j hj
    rcases List.mem_map.mp hj with ⟨u, hu, he⟩
    exact he ▸ hinv.seq_le u hu
  have hcc : ∀ k, callCount (submitTask command args delay now s).2 k = callCount s k := by
    intro k
    simp [callCount, submitTask]
  constructor
  · intro t ht
    simp only [submitTask, List.mem_append, List.mem_singleton] at ht
    rcases ht with ht | ht
    · exact Nat.le_succ_of_le (hinv.seq_le t ht)
    · simp [submitTask, ht]
  · simp only [submitTask, List.map_append, List.map_cons, List.map_nil]
    rw [List.nodup_append]
    refine ⟨hinv.seq_nodup, List.nodup_singleton _, ?_⟩
    intro j hj
    have := hfresh j hj
    simp only [List.mem_singleton]
    omega
  · intro c hc k hk
    exact Nat.le_succ_of_le (hinv.call_le c hc k hk)
  · intro k hk
    exact Nat.le_succ_of_le (hinv.out_le k hk)
  · exact hinv.out_nodup
  · intro k hk
    rw [hcc]
    exact hinv.out_call k hk
  · intro k
    rw [hcc]
    exact hinv.call_once k
  · intro t ht
    simp only [submitTask, List.mem_append, List.mem_singleton] at ht
    rcases ht with ht | ht
    · exact hinv.pending_clean t ht
    · subst ht
      exact fun _ => ⟨rfl, rfl⟩
  · intro t ht
    simp only [submitTask, List.mem_append, List.mem_singleton] at ht
    rcases ht with ht | ht
    · exact hinv.running_clean t ht
    · subst ht
      intro hs
      cases hs
  · intro t ht hs
    simp only [submitTask, List.mem_append, List.mem_singleton] at ht
    rcases ht with ht | ht
    · rw [hcc]
      exact hinv.unstarted_fresh t ht hs
    · subst ht
      rw [hcc]
      constructor
      · exact callsFor_eq_zero_of_bounded s.hostCalls s.taskCounter hinv.call_le _
          (Nat.lt_succ_self _)
      · intro hmem
        have hle : s.taskCounter + 1 ≤ s.taskCounter := hinv.out_le _ hmem
        omega
  · intro t ht hs
    simp only [submitTask, List.mem_append, List.mem_singleton] at ht
    rcases ht with ht | ht
    · exact hinv.terminal_out t ht hs
    · subst ht
      rcases hs with hs | hs <;> cases hs

theorem inv_executeCommand {s : SysState} (hinv : Inv s) (cfg : ExecConfig)
    (host : String → List String → Except String String) (command : String)
    (args : List String) (now : Nat) :
    Inv (executeCommand cfg host command args now s).2 := by
  unfold executeCommand
  split
  · split
    · exact inv_submit hinv command args cfg.executionDelay now
    · have hsync : ∀ c a, Inv { s with hostCalls := s.hostCalls ++ [HostCall.sync c a] } := by
        intro c a
        have hcc : ∀ k, callCount { s with hostCalls := s.hostCalls ++ [HostCall.sync c a] } k =
            callCount s k := by
          intro k
          simp [callCount, callsFor_append_sync]
        constructor
        · exact hinv.seq_le
        · exact hinv.seq_nodup
        · intro x hx k hk
          rcases List.mem_append.mp hx with hx | hx
          · exact hinv.call_le x hx k hk
          · rcases List.mem_singleton.mp hx with rfl
            cases hk
        · exact hinv.out_le
        · exact hinv.out_nodup
        · intro k hk
          rw [hcc]
          exact hinv.out_call k hk
        · intro k
          rw [hcc]
          exact hinv.call_once k
        · exact hinv.pending_clean
        · exact hinv.running_clean
        · intro t ht hs
          rw [hcc]
          exact hinv.unstarted_fresh t ht hs
        · exact hinv.terminal_out
      split
      · exact hsync command args
      · exact hsync command args
  · exact hinv

theorem inv_tickStep {s : SysState} (hinv : Inv s) (now k : Nat) :
    Inv (tickStep now s k) := by
  unfold tickStep
  cases ht : lookupSeq s k with
  | none => exact hinv
  | some t =>
    by_cases hp : t.status = .pending
    · by_cases hex : shouldExecute now t.createdAt t.delay = true
      · simp only [if_pos hp, if_pos hex]
        have hmem : t ∈ s.tasks := List.mem_of_find?_eq_some ht
        have hseq : t.seq = k := by simpa using List.find?_some ht
        have hclean := hinv.pending_clean t hmem hp
        have hfresh := hinv.unstarted_fresh t hmem hclean.1
        have hcall0 : callCount s k = 0 := hseq ▸ hfresh.1
        have hout : k ∉ s.outstanding := hseq ▸ hfresh.2
        have hkle : k ≤ s.taskCounter := hseq ▸ hinv.seq_le t hmem
        have hcc : ∀ j, callsFor (s.hostCalls ++ [HostCall.task k t.command t.args]) j =
            callCount s j + (if j = k then 1 else 0) := by
          intro j
          exact callsFor_append_task s.hostCalls k t.command t.args j
        constructor
        · intro u' hu'
          rcases seq_of_mem_update hu' with ⟨u, hu, ⟨_, he⟩ | ⟨_, he⟩⟩
          · rw [he]
            exact hinv.seq_le u hu
          · rw [he]
            exact hinv.seq_le u hu
        · show ((s.tasks.map _).map _).Nodup
          rw [map_seq_update s.tasks k
            (fun u => { u with status := .running, startedAt := some now }) (fun u => rfl)]
          exact hinv.seq_nodup
        · intro c hc j hj
          rcases List.mem_append.mp hc with hc | hc
          · exact hinv.call_le c hc j hj
          · rcases List.mem_singleton.mp hc with rfl
            cases hj
            exact hkle
        · intro j hj
          rcases List.mem_append.mp hj with hj | hj
          · exact hinv.out_le j hj
          · rcases List.mem_singleton.mp hj with rfl
            exact hkle
        · rw [List.nodup_append]
          exact ⟨hinv.out_nodup, List.nodup_singleton _, by
            intro j hj hk
            rcases List.mem_singleton.mp hk with rfl
            exact hout hj⟩
        · intro j hj
          show callsFor _ j = 1
          rw [hcc]
          rcases List.mem_append.mp hj with hj | hj
          · have hne : j ≠ k := fun he => hout (he ▸ hj)
            rw [if_neg hne]
            simpa using hinv.out_call j hj
          · rcases List.mem_singleton.mp hj with rfl
            rw [if_pos rfl, hcall0]
        · intro j
          show callsFor _ j ≤ 1
          rw [hcc]
          by_cases hj : j = k
          · rw [if_pos hj, hj, hcall0]
          · rw [if_neg hj]
            simpa using hinv.call_once j
        · intro u' hu' hps
          rcases seq_of_mem_update hu' with ⟨u, hu, ⟨_, he⟩ | ⟨_, he⟩⟩
          · rw [he] at hps
            cases hps
          · rw [he] at hps ⊢
            exact hinv.pending_clean u hu hps
        · intro u' hu' hrs
          rcases seq_of_mem_update hu' with ⟨u, hu, ⟨huk, he⟩ | ⟨_, he⟩⟩
          · have hut : u = t := eq_of_mem_of_seq_eq hinv.seq_nodup hu hmem (huk.trans hseq.symm)
            subst hut
            rw [he]
            exact hclean.2
          · rw [he] at hrs ⊢
            exact hinv.running_clean u hu hrs
        · intro u' hu' hss
          rcases seq_of_mem_update hu' with ⟨u, hu, ⟨_, he⟩ | ⟨hne, he⟩⟩
          · rw [he] at hss
            cases hss
          · rw [he] at hss ⊢
            have hold := hinv.unstarted_fresh u hu hss
            constructor
            · show callsFor _ u.seq = 0
              rw [hcc, if_neg hne, hold.1]
            · intro hmm
              rcases List.mem_append.mp hmm with hmm | hmm
              · exact hold.2 hmm
              · exact hne (List.mem_singleton.mp hmm)
        · intro u' hu' hss
          rcases seq_of_mem_update hu' with ⟨u, hu, ⟨_, he⟩ | ⟨hne, he⟩⟩
          · rw [he] at hss
            rcases hss with hss | hss <;> cases hss
          · rw [he] at hss ⊢
            have hold := hinv.terminal_out u hu hss
            intro hmm
            rcases List.mem_append.mp hmm with hmm | hmm
            · exact hold hmm
            · exact hne (List.mem_singleton.mp hmm)
      · simp only [if_pos hp, if_neg hex]
        exact hinv
    · simp only [if_neg hp]
      exact hinv

theorem inv_processPendingTasks {s : SysState} (hinv : Inv s) (now : Nat) :
    Inv (processPendingTasks now s) := by
  have hfold : ∀ (L : List Nat) (s₀ : SysState), Inv s₀ →
      Inv (L.foldl (tickStep now) s₀) := by
    intro L
    induction L with
    | nil => exact fun _ h => h
    | cons j L ih => exact fun s₀ h => ih _ (inv_tickStep h now j)
  unfold processPendingTasks
  split
  · exact hfold _ s hinv
  · exact hinv

theorem inv_cancelTask {s : SysState} (hinv : Inv s) (taskId : String) (now : Nat) :
    Inv (cancelTask taskId now s).2 := by
  unfold cancelTask
  cases hg : getTask s taskId with
  | none => exact hinv
  | some t =>
    by_cases hguard : t.status = .pending ∨ t.status = .running
    · simp only [if_pos hguard]
      have hmem : t ∈ s.tasks := List.mem_of_find?_eq_some hg
      have hdec : ∀ u', u' ∈ updateFirstById taskId
          (fun u => { u with status := .cancelled, completedAt := some now }) s.tasks →
          u' ∈ s.tasks ∨ u' = { t with status := .cancelled, completedAt := some now } := by
        intro u' hu'
        rcases mem_updateFirstById hu' with hin | ⟨u, hu, he⟩
        · exact Or.inl hin
        · right
          have hg' : s.tasks.find? (fun x => x.id = taskId) = some t := hg
          have hut : u = t := Option.some.inj (hu.symm.trans hg')
          rw [hut] at he
          exact he
      constructor
      · intro u' hu'
        rcases hdec u' hu' with hin | he
        · exact hinv.seq_le u' hin
        · rw [he]
          exact hinv.seq_le t hmem
      · show ((updateFirstById _ _ _).map _).Nodup
        rw [map_seq_updateFirstById s.tasks taskId
          (fun u => { u with status := .cancelled, completedAt := some now }) (fun u => rfl)]
        exact hinv.seq_nodup
      · exact hinv.call_le
      · exact hinv.out_le
      · exact hinv.out_nodup
      · exact hinv.out_call
      · exact hinv.call_once
      · intro u' hu' hps
        rcases hdec u' hu' with hin | he
        · exact hinv.pending_clean u' hin hps
        · rw [he] at hps
          cases hps
      · intro u' hu' hrs
        rcases hdec u' hu' with hin | he
        · exact hinv.running_clean u' hin hrs
        · rw [he] at hrs
          cases hrs
      · intro u' hu' hss
        rcases hdec u' hu' with hin | he
        · exact hinv.unstarted_fresh u' hin hss
        · rw [he] at hss ⊢
          exact hinv.unstarted_fresh t hmem hss
      · intro u' hu' hss
        rcases hdec u' hu' with hin | he
        · exact hinv.terminal_out u' hin hss
        · rw [he] at hss
          rcases hss with hss | hss <;> cases hss
    · simp only [if_neg hguard]
      exact hinv

theorem inv_settle {s : SysState} (hinv : Inv s) (k : Nat) (hk : k ∈ s.outstanding)
    (f : BackgroundTask → BackgroundTask)
    (hfseq : ∀ u, (f u).seq = u.seq)
    (hfstart : ∀ u, (f u).startedAt = u.startedAt)
    (hfstat : ∀ u, (f u).status = .completed ∨ (f u).status = .failed) :
    Inv { (updateSeq k f s) with outstanding := s.outstanding.erase k } := by
  constructor
  · intro u' hu'
    rcases seq_of_mem_update hu' with ⟨u, hu, ⟨_, he⟩ | ⟨_, he⟩⟩
    · rw [he, hfseq]
      exact hinv.seq_le u hu
    · rw [he]
      exact hinv.seq_le u hu
  · show ((s.tasks.map _).map _).Nodup
    rw [map_seq_update s.tasks k f hfseq]
    exact hinv.seq_nodup
  · exact hinv.call_le
  · intro j hj
    exact hinv.out_le j (List.mem_of_mem_erase hj)
  · exact hinv.out_nodup.erase k
  · intro j hj
    exact hinv.out_call j (List.mem_of_mem_erase hj)
  · exact hinv.call_once
  · intro u' hu' hps
    rcases seq_of_mem_update hu' with ⟨u, hu, ⟨_, he⟩ | ⟨_, he⟩⟩
    · rw [he] at hps
      rcases hfstat u with hs | hs <;> rw [hs] at hps <;> cases hps
    · rw [he] at hps ⊢
      exact hinv.pending_clean u hu hps
  · intro u' hu' hrs
    rcases seq_of_mem_update hu' with ⟨u, hu, ⟨_, he⟩ | ⟨_, he⟩⟩
    · rw [he] at hrs
      rcases hfstat u with hs | hs <;> rw [hs] at hrs <;> cases hrs
    · rw [he] at hrs ⊢
      exact hinv.running_clean u hu hrs
  · intro u' hu' hss
    rcases seq_of_mem_update hu' with ⟨u, hu, ⟨huk, he⟩ | ⟨hne, he⟩⟩
    · rw [he, hfstart] at hss
      exact absurd (huk ▸ hk) (hinv.unstarted_fresh u hu hss).2
    · rw [he] at hss ⊢
      have hold := hinv.unstarted_fresh u hu hss
      exact ⟨hold.1, fun hmm => hold.2 (List.mem_of_mem_erase hmm)⟩
  · intro u' hu' hss
    rcases seq_of_mem_update hu' with ⟨u, hu, ⟨huk, he⟩ | ⟨hne, he⟩⟩
    · rw [he, hfseq, huk]
      exact hinv.out_nodup.not_mem_erase
    · rw [he] at hss ⊢
      exact fun hmm => hinv.terminal_out u hu hss (List.mem_of_mem_erase hmm)

theorem inv_completeTask {s : SysState} (hinv : Inv s) {k : Nat}
    (hk : k ∈ s.outstanding) (result : String) (now : Nat) :
    Inv (completeTask k result now s) :=
  inv_settle hinv k hk _ (fun _ => rfl) (fun _ => rfl) (fun _ => Or.inl rfl)

theorem inv_failTask {s : SysState} (hinv : Inv s) {k : Nat}
    (hk : k ∈ s.outstanding) (error : String) (now : Nat) :
    Inv (failTask k error now s) :=
  inv_settle hinv k hk _ (fun _ => rfl) (fun _ => rfl) (fun _ => Or.inr rfl)

theorem inv_step {s s' : SysState} (hinv : Inv s) (hstep : Step s s') : Inv s' := by
  cases hstep with
  | exec cfg host command args now _ => exact inv_executeCommand hinv cfg host command args now
  | tick now _ => exact inv_processPendingTasks hinv now
  | cancel taskId now _ => exact inv_cancelTask hinv taskId now
  | complete k result now _ h => exact inv_completeTask hinv h result now
  | failStep k error now _ h => exact inv_failTask hinv h error now
  | clearCompleted _ => exact inv_clearCompleted hinv
  | clearAll _ => exact inv_clearAll hinv
  | refreshConfig newAsync _ => exact inv_updateAsyncConfig hinv newAsync
  | stopStep _ => exact inv_stop hinv
  | disposeStep _ => exact inv_dispose hinv

theorem inv_reachable {s : SysState} (h : Reachable s) : Inv s := by
  induction h with
  | init => exact inv_init
  | step _ hstep ih => exact inv_step ih hstep

/-- C3: on every reachable state, no task has been handed to the Command
Host more than once; and any task with a host call on record has left
`pending` with `startedAt` assigned — the flip to `running` happens
before the call is issued, and only pending tasks are ever started. -/
theorem C3_at_most_one_dispatch (s : SysState) (h : Reachable s) (k : Nat) :
    callCount s k ≤ 1 ∧
    (∀ t ∈ s.tasks, 1 ≤ callCount s t.seq →
      t.startedAt.isSome = true ∧ t.status ≠ .pending) := by
  have hinv := inv_reachable h
  refine ⟨hinv.call_once k, ?_⟩
  intro t ht hc
  by_cases hs : t.startedAt = none
  · have h0 := (hinv.unstarted_fresh t ht hs).1
    omega
  · constructor
    · cases hst : t.startedAt with
      | none => exact absurd hst hs
      | some v => rfl
    · intro hp
      exact hs (hinv.pending_clean t ht hp).1

/-- Witness for C3: in the demo state the started task has exactly one
host call on record, within the proven bound. -/
theorem C3_witness : callCount demoS2 1 = 1 ∧ callCount demoS2 1 ≤ 1 :=
  ⟨by decide, (C3_at_most_one_dispatch demoS2 demoS2_reachable 1).1⟩

theorem lookupSeq_executeCommand (cfg : ExecConfig)
    (host : String → List String → Except String String) (command : String)
    (args : List String) (now : Nat) (s : SysState) (k : Nat) (t : BackgroundTask)
    (h : lookupSeq s k = some t) :
    lookupSeq (executeCommand cfg host command args now s).2 k = some t := by
  unfold executeCommand
  split
  · split
    · show (s.tasks ++ _).find? _ = some t
      rw [List.find?_append]
      rw [show s.tasks.find? (fun u => u.seq = k) = some t from h]
      rfl
    · split <;> exact h
  · exact h

theorem lookupSeq_updateFirstById_of_seq_ne {ts : List BackgroundTask}
    {taskId : String} {u : BackgroundTask}
    (hfind : ts.find? (fun x => x.id = taskId) = some u)
    (f : BackgroundTask → BackgroundTask) (hfseq : ∀ x, (f x).seq = x.seq)
    {k : Nat} (hne : ¬ u.seq = k) :
    (updateFirstById taskId f ts).find? (fun x => x.seq = k) =
      ts.find? (fun x => x.seq = k) := by
  rcases updateFirstById_structure hfind f with ⟨l₁, l₂, he, hup, _⟩
  rw [hup, he, List.find?_append, List.find?_append]
  have h1 : (f u :: l₂).find? (fun x => x.seq = k) = (u :: l₂).find? (fun x => x.seq = k) := by
    rw [List.find?_cons_of_neg _ (by simpa using (hfseq u ▸ hne : ¬ (f u).seq = k)),
      List.find?_cons_of_neg _ (by simpa using hne)]
  rw [h1]

theorem lookupSeq_updateFirstById_of_seq_eq {ts : List BackgroundTask}
    {taskId : String} {u : BackgroundTask}
    (hN : (ts.map (fun x => x.seq)).Nodup)
    (hfind : ts.find? (fun x => x.id = taskId) = some u)
    (f : BackgroundTask → BackgroundTask) (hfseq : ∀ x, (f x).seq = x.seq)
    {k : Nat} (hk : u.seq = k) :
    (updateFirstById taskId f ts).find? (fun x => x.seq = k) = some (f u) := by
  rcases updateFirstById_structure hfind f with ⟨l₁, l₂, he, hup, _⟩
  have hnotin : ∀ x ∈ l₁, ¬ x.seq = k := by
    intro x hx hxk
    rw [he, List.map_append, List.nodup_append] at hN
    have hxu : x.seq = u.seq := by rw [hxk, hk]
    exact hN.2.2 (List.mem_map_of_mem _ hx) (by simp [hxu])
  rw [hup, List.find?_append]
  have h1 : l₁.find? (fun x => x.seq = k) = none := by
    rw [List.find?_eq_none]
    intro x hx
    simpa using hnotin x hx
  rw [h1]
  rw [List.find?_cons_of_pos _ (by simp [hfseq, hk])]
  rfl

theorem settle_discipline {s : SysState} (hinv : Inv s) {k : Nat}
    (hk : k ∈ s.outstanding) {t : BackgroundTask} (h : lookupSeq s k = some t) :
    t.startedAt.isSome = true ∧ (t.completedAt ≠ none → t.status = .cancelled) := by
  have hmem := List.mem_of_find?_eq_some h
  have hseq : t.seq = k := by simpa using List.find?_some h
  have hstarted : t.startedAt.isSome = true := by
    cases hst : t.startedAt with
    | some v => rfl
    | none => exact absurd (hseq ▸ hk) (hinv.unstarted_fresh t hmem hst).2
  refine ⟨hstarted, ?_⟩
  intro hc
  cases hstat : t.status with
  | pending => exact absurd (hinv.pending_clean t hmem hstat).2 hc
  | running => exact absurd (hinv.running_clean t hmem hstat) hc
  | completed => exact absurd (hseq ▸ hk) (hinv.terminal_out t hmem (Or.inl hstat))
  | failed => exact absurd (hseq ▸ hk) (hinv.terminal_out t hmem (Or.inr hstat))
  | cancelled => rfl

theorem discipline_refl (t : BackgroundTask) :
    t.createdAt = t.createdAt ∧
    (t.startedAt.isSome = true → t.startedAt = t.startedAt) ∧
    (t.startedAt ≠ t.startedAt →
      t.status = .pending ∧ t.status = .running ∧ t.startedAt = none) ∧
    (t.completedAt ≠ t.completedAt →
      (t.status = .completed ∨ t.status = .failed ∨ t.status = .cancelled) ∧
      (t.completedAt = none ∨ (t.status = .cancelled ∧ t.startedAt.isSome = true ∧
        (t.status = .completed ∨ t.status = .failed)))) :=
  ⟨rfl, fun _ => rfl, fun hc => absurd rfl hc, fun hc => absurd rfl hc⟩

/-- C6 (amended): across any single runtime step, a stored task's
`createdAt` never changes and `startedAt` changes at most once — exactly
on the `pending → running` transition, from unassigned; `completedAt`
changes only when the task's new status is terminal, and a `completedAt`
that was already assigned is overwritten only in the one situation the
code forces: a task cancelled after it started is later restamped
`completed` or `failed` — with a new `completedAt` — when its outstanding
Command Host call settles. -/
theorem C6_timestamp_discipline (s s' : SysState) (hreach : Reachable s)
    (hstep : Step s s') (k : Nat) (t t' : BackgroundTask)
    (h : lookupSeq s k = some t) (h' : lookupSeq s' k = some t') :
    t'.createdAt = t.createdAt ∧
    (t.startedAt.isSome = true → t'.startedAt = t.startedAt) ∧
    (t'.startedAt ≠ t.startedAt →
      t.status = .pending ∧ t'.status = .running ∧ t.startedAt = none) ∧
    (t'.completedAt ≠ t.completedAt →
      (t'.status = .completed ∨ t'.status = .failed ∨ t'.status = .cancelled) ∧
      (t.completedAt = none ∨ (t.status = .cancelled ∧ t.startedAt.isSome = true ∧
        (t'.status = .completed ∨ t'.status = .failed)))) := by
  have hinv := inv_reachable hreach
  cases hstep with
  | exec cfg host command args now _ =>
    have hsame := lookupSeq_executeCommand cfg host command args now s k t h
    have ht' : t' = t := Option.some.inj (h'.symm.trans hsame)
    rw [ht']
    exact discipline_refl t
  | tick now _ =>
    by_cases hr : s.isRunning
    · have hpt : processPendingTasks now s = (pendingSeqs s).foldl (tickStep now) s := by
        unfold processPendingTasks
        rw [if_pos hr]
      rw [hpt] at h'
      by_cases hp : t.status = .pending
      · by_cases hex : shouldExecute now t.createdAt t.delay = true
        · have hfire := lookupSeq_foldl_fires now (pendingSeqs s) s k t h hp hex
            (mem_pendingSeqs h hp)
          have ht' : t' = { t with status := .running, startedAt := some now } :=
            Option.some.inj (h'.symm.trans hfire)
          have hclean := hinv.pending_clean t (List.mem_of_find?_eq_some h) hp
          rw [ht']
          refine ⟨rfl, ?_, ?_, ?_⟩
          · intro hs
            rw [hclean.1] at hs
            cases hs
          · intro _
            exact ⟨hp, rfl, hclean.1⟩
          · intro hc
            exact absurd rfl hc
        · have hpres := lookupSeq_foldl_preserved now (pendingSeqs s) s k t h
            (Or.inr (by simpa using hex))
          have ht' : t' = t := Option.some.inj (h'.symm.trans hpres)
          rw [ht']
          exact discipline_refl t
      · have hpres := lookupSeq_foldl_preserved now (pendingSeqs s) s k t h (Or.inl hp)
        have ht' : t' = t := Option.some.inj (h'.symm.trans hpres)
        rw [ht']
        exact discipline_refl t
    · have hpt : processPendingTasks now s = s := by
        unfold processPendingTasks
        rw [if_neg hr]
      rw [hpt] at h'
      have ht' : t' = t := Option.some.inj (h'.symm.trans h)
      rw [ht']
      exact discipline_refl t
  | cancel taskId now _ =>
    cases hg : getTask s taskId with
    | none =>
      have hs' : (cancelTask taskId now s).2 = s := by
        unfold cancelTask
        rw [hg]
      rw [hs'] at h'
      have ht' : t' = t := Option.some.inj (h'.symm.trans h)
      rw [ht']
      exact discipline_refl t
    | some u =>
      by_cases hguard : u.status = .pending ∨ u.status = .running
      · have hs' : (cancelTask taskId now s).2 = { s with tasks := (updateFirstById taskId (fun x => { x with status := .cancelled, completedAt := some now }) s.tasks) } := by
          unfold cancelTask
          rw [hg]
          simp only [if_pos hguard]
        rw [hs'] at h'
        have hg' : s.tasks.find? (fun x => x.id = taskId) = some u := hg
        have hts : t.seq = k := by simpa using List.find?_some h
        by_cases huk : u.seq = k
        · have hlk := lookupSeq_updateFirstById_of_seq_eq hinv.seq_nodup hg'
            (fun x => { x with status := .cancelled, completedAt := some now })
            (fun x => rfl) huk
          have hut : u = t := eq_of_mem_of_seq_eq hinv.seq_nodup
            (List.mem_of_find?_eq_some hg') (List.mem_of_find?_eq_some h) (by rw [huk, hts])
          rw [hut] at hlk hguard
          have ht' : t' = { t with status := .cancelled, completedAt := some now } :=
            Option.some.inj (h'.symm.trans hlk)
          have hcnone : t.completedAt = none := by
            rcases hguard with hg1 | hg1
            · exact (hinv.pending_clean t (List.mem_of_find?_eq_some h) hg1).2
            · exact hinv.running_clean t (List.mem_of_find?_eq_some h) hg1
          rw [ht']
          refine ⟨rfl, fun _ => rfl, fun hc => absurd rfl hc, ?_⟩
          intro _
          exact ⟨Or.inr (Or.inr rfl), Or.inl hcnone⟩
        · have hlk := lookupSeq_updateFirstById_of_seq_ne hg'
            (fun x => { x with status := .cancelled, completedAt := some now })
            (fun x => rfl) huk
          have ht' : t' = t := Option.some.inj ((h'.symm.trans hlk).trans h)
          rw [ht']
          exact discipline_refl t
      · have hs' : (cancelTask taskId now s).2 = s := by
          unfold cancelTask
          rw [hg]
          simp only [if_neg hguard]
        rw [hs'] at h'
        have ht' : t' = t := Option.some.inj (h'.symm.trans h)
        rw [ht']
        exact discipline_refl t
  | complete k2 result now _ hk2 =>
    by_cases hkk : k2 = k
    · subst hkk
      have hlk : lookupSeq (completeTask k2 result now s) k2 = some { t with status := .completed, completedAt := some now, result := some result } := by
        show (s.tasks.map _).find? _ = _
        rw [find?_map_update s.tasks k2 (fun x => { x with status := .completed, completedAt := some now, result := some result }) (fun x => rfl)]
        rw [show s.tasks.find? (fun x => x.seq = k2) = some t from h]
        rfl
      have ht' := Option.some.inj (h'.symm.trans hlk)
      have hsd := settle_discipline hinv hk2 h
      rw [ht']
      refine ⟨rfl, fun _ => rfl, fun hc => absurd rfl hc, ?_⟩
      intro _
      refine ⟨Or.inl rfl, ?_⟩
      by_cases hcn : t.completedAt = none
      · exact Or.inl hcn
      · exact Or.inr ⟨hsd.2 hcn, hsd.1, Or.inl rfl⟩
    · have hlk : lookupSeq (completeTask k2 result now s) k = lookupSeq s k := by
        show (s.tasks.map _).find? _ = _
        exact find?_map_update_ne s.tasks k2 k hkk _ (fun x => rfl)
      have ht' : t' = t := Option.some.inj ((h'.symm.trans hlk).trans h)
      rw [ht']
      exact discipline_refl t
  | failStep k2 error now _ hk2 =>
    by_cases hkk : k2 = k
    · subst hkk
      have hlk : lookupSeq (failTask k2 error now s) k2 = some { t with status := .failed, completedAt := some now, error := some error } := by
        show (s.tasks.map _).find? _ = _
        rw [find?_map_update s.tasks k2 (fun x => { x with status := .failed, completedAt := some now, error := some error }) (fun x => rfl)]
        rw [show s.tasks.find? (fun x => x.seq = k2) = some t from h]
        rfl
      have ht' := Option.some.inj (h'.symm.trans hlk)
      have hsd := settle_discipline hinv hk2 h
      rw [ht']
      refine ⟨rfl, fun _ => rfl, fun hc => absurd rfl hc, ?_⟩
      intro _
      refine ⟨Or.inr (Or.inl rfl), ?_⟩
      by_cases hcn : t.completedAt = none
      · exact Or.inl hcn
      · exact Or.inr ⟨hsd.2 hcn, hsd.1, Or.inr rfl⟩
    · have hlk : lookupSeq (failTask k2 error now s) k = lookupSeq s k := by
        show (s.tasks.map _).find? _ = _
        exact find?_map_update_ne s.tasks k2 k hkk _ (fun x => rfl)
      have ht' : t' = t := Option.some.inj ((h'.symm.trans hlk).trans h)
      rw [ht']
      exact discipline_refl t
  | clearCompleted _ =>
    have hmem' : t' ∈ s.tasks :=
      (List.mem_filter.mp (List.mem_of_find?_eq_some h')).1
    have hseq' : t'.seq = k := by simpa using List.find?_some h'
    have hseq : t.seq = k := by simpa using List.find?_some h
    have ht' : t' = t := eq_of_mem_of_seq_eq hinv.seq_nodup hmem'
      (List.mem_of_find?_eq_some h) (by rw [hseq', hseq])
    rw [ht']
    exact discipline_refl t
  | clearAll _ =>
    exact absurd h' (by simp [lookupSeq, clearAllTasks])
  | refreshConfig newAsync _ =>
    by_cases hcnd : newAsync = false ∧ 0 < (getTaskStats s).pending
    · have hs' : (updateAsyncConfig newAsync s).2 = (clearAllTasks s).2 := by
        unfold updateAsyncConfig
        rw [if_pos hcnd]
      rw [hs'] at h'
      exact absurd h' (by simp [lookupSeq, clearAllTasks])
    · have hs' : (updateAsyncConfig newAsync s).2 = s := by
        unfold updateAsyncConfig
        rw [if_neg hcnd]
      rw [hs'] at h'
      have ht' : t' = t := Option.some.inj (h'.symm.trans h)
      rw [ht']
      exact discipline_refl t
  | stopStep _ =>
    have h'' : lookupSeq s k = some t' := h'
    have ht' : t' = t := Option.some.inj (h''.symm.trans h)
    rw [ht']
    exact discipline_refl t
  | disposeStep _ =>
    exact absurd h' (by simp [lookupSeq, dispose, clearAllTasks, stop])

/-- C6 counterexample: on the trace submit, tick, cancel-while-running,
completion of the outstanding host call, the task's `completedAt`
timestamp is assigned twice — `some 5` at cancellation and then
overwritten to `some 9` when the call settles, with the terminal status
`cancelled` also overwritten to `completed`.  This refutes the claim that
`completedAt` is assigned at most once and never changed. -/
theorem C6_counterexample :
    Reachable demoS3 ∧ Step demoS3 demoS4 ∧
    (lookupSeq demoS3 1).map (fun t => t.completedAt) = some (some 5) ∧
    (lookupSeq demoS4 1).map (fun t => t.completedAt) = some (some 9) ∧
    (lookupSeq demoS3 1).map (fun t => t.status) = some .cancelled ∧
    (lookupSeq demoS4 1).map (fun t => t.status) = some .completed :=
  ⟨demoS3_reachable, Step.complete 1 "res" 9 demoS3 (by decide),
    by decide, by decide, by decide, by decide⟩

/-- Witness for C6 (amended) on the concrete tick step that starts the
demo task. -/
theorem C6_witness :
    (⟨1, "bg_task_1_0", "test.one", [], 0, .running, 0, some 0, none, none, none⟩ :
      BackgroundTask).createdAt =
    (⟨1, "bg_task_1_0", "test.one", [], 0, .pending, 0, none, none, none, none⟩ :
      BackgroundTask).createdAt :=
  (C6_timestamp_discipline demoS1 demoS2 demoS1_reachable (Step.tick 0 demoS1) 1
    ⟨1, "bg_task_1_0", "test.one", [], 0, .pending, 0, none, none, none, none⟩
    ⟨1, "bg_task_1_0", "test.one", [], 0, .running, 0, some 0, none, none, none⟩
    (by decide) (by decide)).1

theorem cancelledForever_tickStep {k : Nat} {s : SysState}
    (hP : CancelledForever k s) (now j : Nat) :
    CancelledForever k (tickStep now s j) := by
  obtain ⟨hst, hout, hle⟩ := hP
  unfold tickStep
  cases hl : lookupSeq s j with
  | none => exact ⟨hst, hout, hle⟩
  | some u =>
    by_cases hp : u.status = .pending
    · by_cases hjk : j = k
      · have hmem := List.mem_of_find?_eq_some hl
        have hseq : u.seq = j := by simpa using List.find?_some hl
        have hcan := hst u hmem (hjk ▸ hseq)
        rw [hp] at hcan
        exact TaskStatus.noConfusion hcan
      · by_cases hex : shouldExecute now u.createdAt u.delay = true
        · simp only [if_pos hp, if_pos hex]
          refine ⟨?_, ?_, hle⟩
          · intro v hv hvk
            rcases seq_of_mem_update hv with ⟨w, hw, ⟨hwj, hew⟩ | ⟨_, hew⟩⟩
            · rw [hew] at hvk
              exact absurd (hwj.symm.trans hvk) hjk
            · rw [hew] at hvk ⊢
              exact hst w hw hvk
          · intro hmm
            rcases List.mem_append.mp hmm with hmm | hmm
            · exact hout hmm
            · exact hjk (List.mem_singleton.mp hmm).symm
        · simp only [if_pos hp, if_neg hex]
          exact ⟨hst, hout, hle⟩
    · simp only [if_neg hp]
      exact ⟨hst, hout, hle⟩

theorem cancelledForever_settle {k k2 : Nat} {s : SysState}
    (hP : CancelledForever k s) (hk2 : k2 ∈ s.outstanding)
    (f : BackgroundTask → BackgroundTask) (hfseq : ∀ u, (f u).seq = u.seq) :
    CancelledForever k { (updateSeq k2 f s) with outstanding := s.outstanding.erase k2 } := by
  obtain ⟨hst, hout, hle⟩ := hP
  have hne : k2 ≠ k := fun he => hout (he ▸ hk2)
  refine ⟨?_, ?_, hle⟩
  · intro v hv hvk
    rcases seq_of_mem_update hv with ⟨w, hw, ⟨hwj, hew⟩ | ⟨_, hew⟩⟩
    · rw [hew, hfseq] at hvk
      exact absurd (hwj.symm.trans (hwj ▸ hvk)) hne
    · rw [hew] at hvk ⊢
      exact hst w hw hvk
  · exact fun hmm => hout (List.mem_of_mem_erase hmm)

theorem cancelledForever_step {k : Nat} {s s' : SysState}
    (hP : CancelledForever k s) (hstep : Step s s') : CancelledForever k s' := by
  obtain ⟨hst, hout, hle⟩ := hP
  cases hstep with
  | exec cfg host command args now _ =>
    unfold executeCommand
    split
    · split
      · show CancelledForever k (submitTask command args cfg.executionDelay now s).2
        refine ⟨?_, hout, Nat.le_succ_of_le hle⟩
        intro u hu huk
        simp only [submitTask, List.mem_append, List.mem_singleton] at hu
        rcases hu with hu | hu
        · exact hst u hu huk
        · subst hu
          exfalso
          have hcc : s.taskCounter + 1 = k := huk
          omega
      · split
        · exact ⟨hst, hout, hle⟩
        · exact ⟨hst, hout, hle⟩
    · exact ⟨hst, hout, hle⟩
  | tick now _ =>
    have hfold : ∀ (L : List Nat) (s₀ : SysState), CancelledForever k s₀ →
        CancelledForever k (L.foldl (tickStep now) s₀) := by
      intro L
      induction L with
      | nil => exact fun _ hh => hh
      | cons j L ih => exact fun s₀ hh => ih _ (cancelledForever_tickStep hh now j)
    unfold processPendingTasks
    split
    · exact hfold _ s ⟨hst, hout, hle⟩
    · exact ⟨hst, hout, hle⟩
  | cancel taskId now _ =>
    unfold cancelTask
    cases hg : getTask s taskId with
    | none => exact ⟨hst, hout, hle⟩
    | some u =>
      by_cases hguard : u.status = .pending ∨ u.status = .running
      · simp only [if_pos hguard]
        refine ⟨?_, hout, hle⟩
        intro v hv hvk
        rcases mem_updateFirstById hv with hin | ⟨w, _, hew⟩
        · exact hst v hin hvk
        · rw [hew]
      · simp only [if_neg hguard]
        exact ⟨hst, hout, hle⟩
  | complete k2 result now _ hk2 =>
    exact cancelledForever_settle ⟨hst, hout, hle⟩ hk2 _ (fun _ => rfl)
  | failStep k2 error now _ hk2 =>
    exact cancelledForever_settle ⟨hst, hout, hle⟩ hk2 _ (fun _ => rfl)
  | clearCompleted _ =>
    refine ⟨?_, hout, hle⟩
    intro v hv hvk
    exact hst v (List.mem_filter.mp hv).1 hvk
  | clearAll _ =>
    exact ⟨fun v hv _ => absurd hv (by simp [clearAllTasks]), hout, hle⟩
  | refreshConfig newAsync _ =>
    unfold updateAsyncConfig
    split
    · exact ⟨fun v hv _ => absurd hv (by simp [clearAllTasks]), hout, hle⟩
    · exact ⟨hst, hout, hle⟩
  | stopStep _ =>
    exact ⟨hst, hout, hle⟩
  | disposeStep _ =>
    exact ⟨fun v hv _ => absurd hv (by simp [dispose, clearAllTasks, stop]), hout, hle⟩

theorem cancelledForever_steps {k : Nat} {s s' : SysState}
    (hP : CancelledForever k s) (h : Steps s s') : CancelledForever k s' := by
  induction h with
  | refl => exact hP
  | tail _ hstep ih => exact cancelledForever_step ih hstep

/-- C7: cancelling a task found `pending` succeeds (returns true), the
task is observed `cancelled` afterwards, and in every state reachable
from that point the stored task entity is still `cancelled` — no
scheduler tick or execution step ever moves it to `running`, `completed`
or `failed`. -/
theorem C7_cancel_pending_is_final (s : SysState) (h : Reachable s)
    (taskId : String) (now : Nat) (t : BackgroundTask)
    (hfind : getTask s taskId = some t) (hp : t.status = .pending) :
    (cancelTask taskId now s).1 = true ∧
    (∃ t', getTask (cancelTask taskId now s).2 taskId = some t' ∧
      t'.status = .cancelled) ∧
    (∀ s', Steps (cancelTask taskId now s).2 s' →
      ∀ u ∈ s'.tasks, u.seq = t.seq → u.status = .cancelled) := by
  have hinv := inv_reachable h
  have hguard : t.status = .pending ∨ t.status = .running := Or.inl hp
  have hmem : t ∈ s.tasks := List.mem_of_find?_eq_some hfind
  have hid : t.id = taskId := by simpa using List.find?_some hfind
  have hfst : (cancelTask taskId now s).1 = true := by
    unfold cancelTask
    rw [hfind]
    simp only [if_pos hguard]
  have hs' : (cancelTask taskId now s).2 = { s with tasks := (updateFirstById taskId (fun x => { x with status := .cancelled, completedAt := some now }) s.tasks) } := by
    unfold cancelTask
    rw [hfind]
    simp only [if_pos hguard]
  have hg' : s.tasks.find? (fun x => x.id = taskId) = some t := hfind
  rcases updateFirstById_structure hg'
    (fun x => { x with status := .cancelled, completedAt := some now }) with
    ⟨l₁, l₂, he, hup, hl₁⟩
  have hget : getTask (cancelTask taskId now s).2 taskId = some { t with status := .cancelled, completedAt := some now } := by
    rw [hs']
    show (updateFirstById _ _ _).find? _ = _
    rw [hup, List.find?_append]
    have h1 : l₁.find? (fun x => x.id = taskId) = none := by
      rw [List.find?_eq_none]
      intro x hx
      simpa using hl₁ x hx
    rw [h1, List.find?_cons_of_pos _ (by simp [hid])]
    rfl
  have hP : CancelledForever t.seq (cancelTask taskId now s).2 := by
    rw [hs']
    refine ⟨?_, ?_, hinv.seq_le t hmem⟩
    · intro u hu huk
      show u.status = .cancelled
      rw [hup] at hu
      rcases List.mem_append.mp hu with hu1 | hu2
      · exfalso
        have hmem_u : u ∈ s.tasks := by
          rw [he]
          exact List.mem_append.mpr (Or.inl hu1)
        have hut : u = t := eq_of_mem_of_seq_eq hinv.seq_nodup hmem_u hmem huk
        have hN := hinv.seq_nodup
        rw [he, List.map_append, List.nodup_append] at hN
        exact hN.2.2 (List.mem_map_of_mem _ (hut ▸ hu1)) (by simp)
      · rcases List.mem_cons.mp hu2 with he2 | hu3
        · rw [he2]
        · exfalso
          have hmem_u : u ∈ s.tasks := by
            rw [he]
            exact List.mem_append.mpr (Or.inr (List.mem_cons_of_mem _ hu3))
          have hut : u = t := eq_of_mem_of_seq_eq hinv.seq_nodup hmem_u hmem huk
          have hN := hinv.seq_nodup
          rw [he, List.map_append] at hN
          have hN2 := (List.nodup_append.mp hN).2.1
          rw [List.map_cons, List.nodup_cons] at hN2
          exact hN2.1 (List.mem_map_of_mem _ (hut ▸ hu3))
    · exact (hinv.unstarted_fresh t hmem (hinv.pending_clean t hmem hp).1).2
  refine ⟨hfst, ⟨_, hget, rfl⟩, ?_⟩
  intro s' hsteps
  exact (cancelledForever_steps hP hsteps).1

/-- Witness for C7: cancelling the still-pending delayed demo task. -/
theorem C7_witness : (cancelTask ("bg_task_2_1") 3 demoS5).1 = true :=
  (C7_cancel_pending_is_final demoS5 demoS5_reachable ("bg_task_2_1") 3
    ⟨2, "bg_task_2_1", "test.two", [], 1000, .pending, 1, none, none, none, none⟩
    (by decide) (by decide)).1

end VSCMCP
